import Mathlib

/-!
Shallow embedding of `src/mesos/cli/mesos_file.py` (class `File`).

The remote file's content is a `List Char`.  The remote paging endpoint
`/files/read.json` is an external collaborator; it is modelled from §4.1/§6
of the spec: a request carries `(offset, length)`, a successful response
carries `offset` (the current total file size) and `data` (the byte range
actually available, empty past end of file); a missing remote path is a 404
that `File._fetch` turns into the `FileDNE` domain error.

Python integers are `Int`; Python truthiness of the optional `size`
argument (`None` and `0` are falsy) is modelled explicitly.
-/

namespace MesosFile

/-- Python `"...".split("\n")` on a character list: splits on the newline
character, always returning at least one (possibly empty) piece. -/
def splitNl : List Char → List (List Char)
  | [] => [[]]
  | c :: rest =>
    if c = '\n' then [] :: splitNl rest
    else (c :: (splitNl rest).headD []) :: (splitNl rest).tail

/-- Response of the remote paging endpoint, modelled from the spec (§6): the
`offset` field of a successful response carries the current total file size,
`data` the bytes actually available. -/
structure FetchResp where
  offset : Int
  data : List Char
deriving DecidableEq

/-- Data returned by the endpoint for a request at `off` of length `len`:
the byte range of the file that is actually available (empty for negative
offsets and past end of file, shorter than `len` at end of file). -/
def chunkData (content : List Char) (off len : Int) : List Char :=
  if off < 0 then [] else (content.drop off.toNat).take len.toNat

/-- One successful request against the paging endpoint (spec §4.1/§6). -/
def endpointFetch (content : List Char) (off len : Int) : FetchResp :=
  ⟨(content.length : Int), chunkData content off len⟩

/-- The one domain error of this layer: `exceptions.FileDNE` (module
`mesos.cli.exceptions` is not under `src/`; modelled from the spec §7 as the
translation of a not-found response). -/
inductive FetchErr where
  | fileDNE
deriving DecidableEq

/-- Python `File._fetch`: performs the endpoint request with the current
`_params`; a 404 (remote file absent, modelled as `remote = none`) raises
`FileDNE`, otherwise the decoded response is returned. -/
def pyFetch (remote : Option (List Char)) (off len : Int) : Except FetchErr FetchResp :=
  match remote with
  | none => .error .fileDNE
  | some content => .ok (endpointFetch content off len)

/-- The mutable state of a `File` handle: the cursor `_offset` and the
`offset`/`length` entries of the shared request dict `_params` (the `path`
entry is fixed for the handle's lifetime). -/
structure FState where
  offset : Int
  pOffset : Int
  pLength : Int
deriving DecidableEq

/-- Python `File.__init__`: cursor `_offset = 0`,
`_params = {offset: -1, length: chunk_size}`. -/
def initFState (chunk_size : Int) : FState := ⟨0, -1, chunk_size⟩

/-- The request parameters a call of `File.size` hands to `host.fetch`:
the current contents of the shared `_params` dict. -/
def sizeFetchParams (st : FState) : Int × Int := (st.pOffset, st.pLength)

/-- Python `File.size`: a fresh `_fetch()` with the current `_params`,
returning the `offset` field of the response; no value is cached and the
state is unchanged. -/
def sizeProp (content : List Char) (st : FState) : Int :=
  (endpointFetch content st.pOffset st.pLength).offset

/-- Python `File.seek(offset, whence)` with `whence` the numeric
`os.SEEK_SET = 0`, `os.SEEK_CUR = 1`, `os.SEEK_END = 2`; any other value
leaves the cursor unchanged (the source has no `else` branch).  `SEEK_END`
performs a live size fetch.  No clamping is applied. -/
def pySeek (content : List Char) (st : FState) (offset whence : Int) : FState :=
  if whence = 0 then { st with offset := 0 + offset }
  else if whence = 1 then { st with offset := st.offset + offset }
  else if whence = 2 then { st with offset := sizeProp content st + offset }
  else st

/-- Python `File.exists`: attempt a `_fetch`, map `FileDNE` to `false` and
success to `true`; total, so no error escapes. -/
def pyExists (remote : Option (List Char)) (st : FState) : Bool :=
  match pyFetch remote st.pOffset st.pLength with
  | .ok _ => true
  | .error .fileDNE => false

/-- Python `File._get_chunk(loc, size)`: seek to `loc`, store `loc`/`size`
in the shared `_params`, fetch, then advance the cursor by the length of the
data actually returned. -/
def getChunkSt (content : List Char) (st : FState) (loc len : Int) : List Char × FState :=
  let st1 := pySeek content st loc 0
  let st2 := { st1 with pOffset := loc, pLength := len }
  let data := (endpointFetch content loc len).data
  (data, pySeek content st2 data.length 1)

/-- Python `File._length(start, size)`: Python truthiness — a `size` of
`None` or `0` is falsy and gives `chunk_size`; otherwise the last request is
clamped to the remaining byte count of the bounded read. -/
def pyLength (chunk_size start tell : Int) : Option Int → Int
  | none => chunk_size
  | some s =>
    if s ≠ 0 ∧ tell - start + chunk_size > s then s - (tell - start) else chunk_size

/-- The stop-after condition of `File._read`:
`post = lambda x: size and (self.tell() - start) >= size`. -/
def pyPost (start tell : Int) : Option Int → Bool
  | none => false
  | some s => decide (s ≠ 0) && decide (tell - start ≥ s)

/-- Modelled from the spec: `util.iter_until` (module `mesos.cli.util`, not
under `src/`) drives `File._read` — repeatedly call `fn`, stop before
yielding a chunk for which `pre` holds (empty data), stop after yielding a
chunk once `post` holds (§4.3).  `readLoop` is that loop specialised to
`_read`'s `fn`, `pre` and `post`, with explicit fuel; `content.length + 1`
iterations always suffice because every yielded chunk is nonempty and
advances the cursor. -/
def readLoop (content : List Char) (chunk_size : Int) (size : Option Int) (start : Int) :
    Nat → FState → List (List Char) × FState
  | 0, st => ([], st)
  | fuel + 1, st =>
    let len := pyLength chunk_size start st.offset size
    let p := getChunkSt content st st.offset len
    if p.1 = [] then ([], p.2)
    else if pyPost start p.2.offset size then ([p.1], p.2)
    else
      let rest := readLoop content chunk_size size start fuel p.2
      (p.1 :: rest.1, rest.2)

/-- The chunk sequence produced by `File._read(size)` on a handle whose
cursor is at offset 0 (fresh handle, or after `seek(0)`). -/
def pyChunks (content : List Char) (chunk_size : Int) (size : Option Int) :
    List (List Char) :=
  (readLoop content chunk_size size 0 (content.length + 1) (initFState chunk_size)).1

/-- Python `File.read(size)` from offset 0: `''.join(self._read(size))`. -/
def pyRead (content : List Char) (chunk_size : Int) (size : Option Int) : List Char :=
  (pyChunks content chunk_size size).flatten

/-- `File.tell()` after `File.read(size)` was run from offset 0. -/
def pyTellAfterRead (content : List Char) (chunk_size : Int) (size : Option Int) : Int :=
  (readLoop content chunk_size size 0 (content.length + 1) (initFState chunk_size)).2.offset

/-- Python `File._readlines`: prepend the carry-over fragment to each chunk,
split on newlines, yield every piece but the last, carry the last; the final
carry-over is dropped at end of stream. -/
def rlAux (last : List Char) : List (List Char) → List (List Char)
  | [] => []
  | blob :: rest =>
    let ls := splitNl (last ++ blob)
    ls.take (ls.length - 1) ++ rlAux (ls.getLastD []) rest

/-- Python `File.readlines(size)` from offset 0. -/
def pyReadlines (content : List Char) (chunk_size : Int) (size : Option Int) :
    List (List Char) :=
  rlAux [] (pyChunks content chunk_size size)

/-- Fuel-driven body of Python `xrange(start, stop, -step)` (descending). -/
def xrangeNegAux (stop step : Int) : Nat → Int → List Int
  | 0, _ => []
  | fuel + 1, start =>
    if 0 < step ∧ stop < start then start :: xrangeNegAux stop step fuel (start - step)
    else []

/-- Python `xrange(start, stop, -step)` for a positive `step`: the
descending integers `start, start - step, ...` while still greater than
`stop`.  `(start - stop).toNat` iterations always suffice since every
emitted element is above `stop` and each step goes down by at least one. -/
def xrangeNeg (start stop step : Int) : List Int :=
  xrangeNegAux stop step (start - stop).toNat start

/-- The aligned-offset walk of `File._read_reverse`: fetch one chunk of the
default `chunk_size` length at each offset of the backward-stepping range,
threading the cursor/params state. -/
def revWalk (content : List Char) (chunk_size : Int) :
    List Int → FState → List (List Char) × FState
  | [], st => ([], st)
  | loc :: locs, st =>
    let p := getChunkSt content st loc chunk_size
    let rest := revWalk content chunk_size locs p.2
    (p.1 :: rest.1, rest.2)

/-- Python `File._read_reverse(size)`: fetch `fsize = self.size`, default
`size = fsize` when the argument is falsy (`None` or `0`), walk the aligned
offsets `fsize - chunk_size, fsize - 2 * chunk_size, ...` while above
`fsize - size`, then fetch one final boundary chunk at `fsize - size` with
requested length `size % chunk_size`. -/
def readReverseChunks (content : List Char) (chunk_size : Int) (sizeArg : Option Int)
    (st : FState) : List (List Char) × FState :=
  let fsize := sizeProp content st
  let size := match sizeArg with
    | none => fsize
    | some s => if s = 0 then fsize else s
  let blocks := xrangeNeg (fsize - chunk_size) (fsize - size) chunk_size
  let w := revWalk content chunk_size blocks st
  let last := getChunkSt content w.2 (fsize - size) (size % chunk_size)
  (w.1 ++ [last.1], last.2)

/-- Python `File._readlines_reverse`: append the carry-over prefix after
each chunk, split on newlines, yield every piece but the first in reverse
order, carry the first piece; at end of stream yield the final carry-over. -/
def rlRevAux (buf : List Char) : List (List Char) → List (List Char)
  | [] => [buf]
  | blob :: rest =>
    let ls := splitNl (blob ++ buf)
    ls.reverse.take (ls.length - 1) ++ rlRevAux (ls.headD []) rest

/-- Python `File.__reversed__` read fully: every line of
`_readlines_reverse()`, with the very first yielded line suppressed when it
is the empty sentinel of a trailing terminator. -/
def pyReversedLines (content : List Char) (chunk_size : Int) : List (List Char) :=
  match rlRevAux [] (readReverseChunks content chunk_size none (initFState chunk_size)).1 with
  | [] => []
  | l :: ls => if l = [] then ls else l :: ls

/-- The reverse chunk read covers the file: reassembling the reverse chunk
sequence of a full `_read_reverse` in forward order reproduces the whole
content (every byte exactly once, in order). -/
def revCovers (content : List Char) (chunk_size : Int) : Prop :=
  ((readReverseChunks content chunk_size none (initFState chunk_size)).1).reverse.flatten
    = content

instance (content : List Char) (chunk_size : Int) :
    Decidable (revCovers content chunk_size) :=
  inferInstanceAs (Decidable (_ = _))

/-- The host collaborator, reduced to what `File` uses of it: `host.key()`
(a string, modelled as a character list like all text here). -/
structure Host where
  hostKey : List Char
deriving DecidableEq

/-- The task collaborator, reduced to what `File` uses of it:
`task.directory` and `task["id"]`. -/
structure Task where
  directory : List Char
  id : List Char
deriving DecidableEq

/-- The identity part of a `File` handle: host, optional task, path. -/
structure MFile where
  host : Host
  task : Option Task
  path : List Char
deriving DecidableEq

/-- Python `os.path.join(a, b)` (posix, two arguments): an absolute second
component discards the first; otherwise a single separator joins them. -/
def pyPathJoin (a b : List Char) : List Char :=
  if b.head? = some '/' then b
  else if a = [] ∨ a.getLast? = some '/' then a ++ b
  else a ++ '/' :: b

/-- Python `File.__init__`: `_host_path` is `path` when there is no task,
else `os.path.join(task.directory, path)`. -/
def hostPath (f : MFile) : List Char :=
  match f.task with
  | none => f.path
  | some t => pyPathJoin t.directory f.path

/-- Python `File.key()`: `"{0}:{1}".format(host.key(), _host_path)`. -/
def fileKey (f : MFile) : List Char :=
  f.host.hostKey ++ ':' :: hostPath f

/-- Python `File.__eq__`: `self.key() == y.key()`. -/
def fileEq (a b : MFile) : Bool :=
  fileKey a == fileKey b

/-- A deterministic string hash: stand-in for Python's builtin `hash`,
whose only property used by `File` is that it is a fixed function of the
string. -/
def strHash (s : List Char) : Nat :=
  s.foldl (fun h c => 31 * h + c.toNat) 7

/-- Python `File.__hash__`: `hash(self.key())`. -/
def fileHash (f : MFile) : Nat :=
  strHash (fileKey f)

/-- Sample content `"a\nb\nc\n"` used by the spec's line-level examples. -/
def sampleTerm : List Char := ['a', '\n', 'b', '\n', 'c', '\n']

/-- Sample content `"a\nb\nc"` used by the spec's line-level examples. -/
def sampleUnterm : List Char := ['a', '\n', 'b', '\n', 'c']

/-! ### Lemmas about `splitNl` -/

theorem splitNl_ne_nil (l : List Char) : splitNl l ≠ [] := by
  cases l with
  | nil => simp [splitNl]
  | cons c rest => by_cases h : c = '\n' <;> simp [splitNl, h]

theorem splitNl_exists_cons (l : List Char) : ∃ x xs, splitNl l = x :: xs := by
  cases h : splitNl l with
  | nil => exact absurd h (splitNl_ne_nil l)
  | cons x xs => exact ⟨x, xs, rfl⟩

theorem splitNl_no_nl {a : List Char} (h : '\n' ∉ a) : splitNl a = [a] := by
  induction a with
  | nil => rfl
  | cons c rest ih =>
    have hc : c ≠ '\n' := fun e => h (by simp [e])
    have hr : '\n' ∉ rest := fun m => h (List.mem_cons_of_mem _ m)
    simp [splitNl, hc, ih hr]

theorem splitNl_append_no_nl {a : List Char} (b : List Char) (h : '\n' ∉ a) :
    splitNl (a ++ b) = (a ++ (splitNl b).headD []) :: (splitNl b).tail := by
  induction a with
  | nil =>
    obtain ⟨x, xs, hb⟩ := splitNl_exists_cons b
    simp [hb]
  | cons c rest ih =>
    have hc : c ≠ '\n' := fun e => h (by simp [e])
    have hr : '\n' ∉ rest := fun m => h (List.mem_cons_of_mem _ m)
    simp [splitNl, hc, ih hr]

theorem splitNl_append (a b : List Char) :
    splitNl (a ++ b) =
      (splitNl a).dropLast ++
        ((splitNl a).getLastD [] ++ (splitNl b).headD []) :: (splitNl b).tail := by
  induction a with
  | nil =>
    obtain ⟨x, xs, hb⟩ := splitNl_exists_cons b
    simp [splitNl, hb]
  | cons c rest ih =>
    obtain ⟨x, xs, hr⟩ := splitNl_exists_cons rest
    by_cases hc : c = '\n'
    · subst hc
      have e1 : splitNl ('\n' :: (rest ++ b)) = [] :: splitNl (rest ++ b) := by
        simp [splitNl]
      have e2 : splitNl ('\n' :: rest) = [] :: splitNl rest := by
        simp [splitNl]
      rw [List.cons_append, e1, ih, e2, hr]
      simp [List.getLastD_cons]
    · have e1 : splitNl (c :: (rest ++ b)) =
          (c :: (splitNl (rest ++ b)).headD []) :: (splitNl (rest ++ b)).tail := by
        simp [splitNl, hc]
      have e2 : splitNl (c :: rest) =
          (c :: (splitNl rest).headD []) :: (splitNl rest).tail := by
        simp [splitNl, hc]
      rw [List.cons_append, e1, ih, e2, hr]
      cases xs with
      | nil => simp [List.getLastD_cons]
      | cons y ys => simp [List.getLastD_cons]

theorem splitNl_getLastD_no_nl (l : List Char) : '\n' ∉ (splitNl l).getLastD [] := by
  induction l with
  | nil => simp [splitNl]
  | cons c rest ih =>
    obtain ⟨x, xs, hr⟩ := splitNl_exists_cons rest
    rw [hr] at ih
    by_cases hc : c = '\n'
    · subst hc
      have e : splitNl ('\n' :: rest) = [] :: splitNl rest := by simp [splitNl]
      rw [e, hr]
      simp only [List.getLastD_cons] at ih ⊢
      exact ih
    · have e : splitNl (c :: rest) =
          (c :: (splitNl rest).headD []) :: (splitNl rest).tail := by
        simp [splitNl, hc]
      rw [e, hr]
      cases xs with
      | nil =>
        simp only [List.headD_cons, List.tail_cons, List.getLastD_cons,
          List.getLastD_nil] at ih ⊢
        intro hm
        rcases List.mem_cons.mp hm with hm | hm
        · exact hc hm.symm
        · exact ih hm
      | cons y ys =>
        simp only [List.headD_cons, List.tail_cons, List.getLastD_cons] at ih ⊢
        exact ih

/-- The carry-over recursion of `File._readlines` computes, over any chunk
decomposition, the split of the whole text with the last (possibly
unterminated) piece dropped. -/
theorem rlAux_eq {last : List Char} (bs : List (List Char)) (h : '\n' ∉ last) :
    rlAux last bs = (splitNl (last ++ bs.flatten)).dropLast := by
  induction bs generalizing last with
  | nil => simp [rlAux, splitNl_no_nl h]
  | cons blob rest ih =>
    have h2 : '\n' ∉ (splitNl (last ++ blob)).getLastD [] := splitNl_getLastD_no_nl _
    rw [rlAux, ih h2]
    obtain ⟨x, xs, hj⟩ := splitNl_exists_cons rest.flatten
    rw [splitNl_append_no_nl rest.flatten h2]
    have : last ++ (blob :: rest).flatten = (last ++ blob) ++ rest.flatten := by
      simp [List.flatten_cons, List.append_assoc]
    rw [this, splitNl_append (last ++ blob) rest.flatten,
      List.dropLast_append_cons, ← List.dropLast_eq_take]

/-! ### Lemmas about the forward read loop -/

theorem getChunkSt_eq (content : List Char) (st : FState) (loc len : Int) :
    getChunkSt content st loc len =
      (chunkData content loc len,
        ⟨loc + (chunkData content loc len).length, loc, len⟩) := by
  simp [getChunkSt, pySeek, endpointFetch]

theorem take_append_drop_len {α : Type} (l : List α) (n : Nat) :
    l.take n ++ l.drop (l.take n).length = l := by
  rcases le_total n l.length with h | h
  · rw [List.length_take, min_eq_left h, List.take_append_drop]
  · rw [List.take_of_length_le h, List.drop_of_length_le le_rfl, List.append_nil]

/-- Unbounded forward read (`size` falsy): with at least
`content.length - offset` fuel, the yielded chunks concatenate to the rest of
the content, and the final cursor sits at `max offset (length content)`. -/
theorem readLoop_none {content : List Char} {chunk_size : Int} (hcs : 1 ≤ chunk_size)
    (start : Int) :
    ∀ (fuel : Nat) (st : FState), 0 ≤ st.offset →
      (content.length : Int) ≤ st.offset + fuel →
      (readLoop content chunk_size none start fuel st).1.flatten
          = content.drop st.offset.toNat ∧
      (readLoop content chunk_size none start fuel st).2.offset
          = max st.offset (content.length : Int) := by
  intro fuel
  induction fuel with
  | zero =>
    intro st h0 hf
    have hlen : content.length ≤ st.offset.toNat := by omega
    constructor
    · simp [readLoop, List.drop_eq_nil_iff.mpr hlen]
    · simp [readLoop]
      omega
  | succ n ih =>
    intro st h0 hf
    have hnn : ¬ st.offset < 0 := by omega
    have hlen : pyLength chunk_size start st.offset none = chunk_size := rfl
    have hdata : chunkData content st.offset chunk_size
        = (content.drop st.offset.toNat).take chunk_size.toNat := by
      simp [chunkData, hnn]
    by_cases hd : chunkData content st.offset chunk_size = []
    · have hdrop : content.drop st.offset.toNat = [] := by
        rw [hdata] at hd
        rcases List.take_eq_nil_iff.mp hd with h | h
        · exfalso; omega
        · exact h
      have hle : content.length ≤ st.offset.toNat := List.drop_eq_nil_iff.mp hdrop
      rw [readLoop]
      simp only [hlen, getChunkSt_eq, hd]
      constructor
      · simp [hdrop]
      · simp
        omega
    · have hd1 : 1 ≤ (chunkData content st.offset chunk_size).length :=
        List.length_pos.mpr hd
      have hlt : st.offset.toNat < content.length := by
        rcases Nat.lt_or_ge st.offset.toNat content.length with h | h
        · exact h
        · exact absurd (by rw [hdata, List.drop_eq_nil_iff.mpr h]; simp) hd
      have hdle : (chunkData content st.offset chunk_size).length
          + st.offset.toNat ≤ content.length := by
        rw [hdata, List.length_take, List.length_drop]
        omega
      rw [readLoop]
      simp only [hlen, getChunkSt_eq, hd, if_neg, pyPost, Bool.false_eq_true,
        if_false]
      have ihr := ih ⟨st.offset + (chunkData content st.offset chunk_size).length,
        st.offset, chunk_size⟩
        (by show (0:Int) ≤ st.offset + (chunkData content st.offset chunk_size).length
            omega)
        (by show (content.length : Int)
              ≤ st.offset + (chunkData content st.offset chunk_size).length + ↑n
            omega)
      simp only at ihr
      constructor
      · simp only [List.flatten_cons, ihr.1]
        have ht : (st.offset + (chunkData content st.offset chunk_size).length).toNat
            = st.offset.toNat + (chunkData content st.offset chunk_size).length := by
          omega
        rw [ht, ← List.drop_drop, hdata, take_append_drop_len]
      · rw [ihr.2]
        omega

/-- Bounded forward read from start offset 0: with a positive limit
`s ≤ content.length`, the yielded chunks concatenate to exactly the next
`s - offset` bytes and the final cursor lands on `s`. -/
theorem readLoop_some {content : List Char} {chunk_size s : Int} (hcs : 1 ≤ chunk_size)
    (hsle : s ≤ content.length) :
    ∀ (fuel : Nat) (st : FState), 0 ≤ st.offset → st.offset < s →
      s - st.offset ≤ fuel →
      (readLoop content chunk_size (some s) 0 fuel st).1.flatten
          = (content.drop st.offset.toNat).take (s - st.offset).toNat ∧
      (readLoop content chunk_size (some s) 0 fuel st).2.offset = s := by
  intro fuel
  induction fuel with
  | zero =>
    intro st h0 hts hf
    exact absurd hf (by simp; omega)
  | succ n ih =>
    intro st h0 hts hf
    have hnn : ¬ st.offset < 0 := by omega
    by_cases hbig : st.offset + chunk_size > s
    · have hlen : pyLength chunk_size 0 st.offset (some s) = s - st.offset := by
        simp only [pyLength]
        rw [if_pos ⟨by omega, by omega⟩]
        ring
      have hdata : chunkData content st.offset (s - st.offset)
          = (content.drop st.offset.toNat).take (s - st.offset).toNat := by
        simp [chunkData, hnn]
      have hdlen : (chunkData content st.offset (s - st.offset)).length
          = (s - st.offset).toNat := by
        rw [hdata, List.length_take, List.length_drop]
        omega
      have hd : ¬ chunkData content st.offset (s - st.offset) = [] := by
        intro h
        rw [h] at hdlen
        simp at hdlen
        omega
      rw [readLoop]
      simp only [hlen, getChunkSt_eq, hd, if_false, if_neg hd]
      have hpost : pyPost 0 (st.offset
          + ((chunkData content st.offset (s - st.offset)).length : Int)) (some s)
          = true := by
        simp only [pyPost, hdlen, Bool.and_eq_true, decide_eq_true_eq]
        exact ⟨by omega, by omega⟩
      rw [if_pos hpost]
      refine ⟨by simpa using hdata, ?_⟩
      simp only [hdlen]
      omega
    · have hlen : pyLength chunk_size 0 st.offset (some s) = chunk_size := by
        simp only [pyLength]
        rw [if_neg]
        intro ⟨h1, h2⟩
        omega
      have hdata : chunkData content st.offset chunk_size
          = (content.drop st.offset.toNat).take chunk_size.toNat := by
        simp [chunkData, hnn]
      have hdlen : (chunkData content st.offset chunk_size).length
          = chunk_size.toNat := by
        rw [hdata, List.length_take, List.length_drop]
        omega
      have hd : ¬ chunkData content st.offset chunk_size = [] := by
        intro h
        rw [h] at hdlen
        simp at hdlen
        omega
      rw [readLoop]
      simp only [hlen, getChunkSt_eq, hd, if_false, if_neg hd]
      by_cases heq : st.offset + chunk_size = s
      · have hpost : pyPost 0 (st.offset
            + ((chunkData content st.offset chunk_size).length : Int)) (some s)
            = true := by
          simp only [pyPost, hdlen, Bool.and_eq_true, decide_eq_true_eq]
          exact ⟨by omega, by omega⟩
        rw [if_pos hpost]
        constructor
        · have : (s - st.offset).toNat = chunk_size.toNat := by omega
          rw [this]
          simpa using hdata
        · simp only [hdlen]
          omega
      · have hpost : pyPost 0 (st.offset
            + ((chunkData content st.offset chunk_size).length : Int)) (some s)
            = false := by
          simp only [pyPost, hdlen, Bool.and_eq_false_iff, decide_eq_false_iff_not]
          right
          omega
        rw [hpost, if_neg (by simp)]
        have ihr := ih ⟨st.offset + (chunkData content st.offset chunk_size).length,
          st.offset, chunk_size⟩
          (by show (0:Int) ≤ st.offset + (chunkData content st.offset chunk_size).length
              omega)
          (by show st.offset + ((chunkData content st.offset chunk_size).length : Int) < s
              rw [hdlen]; omega)
          (by show s - (st.offset + ((chunkData content st.offset chunk_size).length : Int))
                ≤ ↑n
              rw [hdlen]; omega)
        simp only at ihr
        constructor
        · rw [hdlen] at ihr
          simp only [List.flatten_cons, hdlen, ihr.1]
          have ht : (st.offset + (chunk_size.toNat : Int)).toNat
              = st.offset.toNat + chunk_size.toNat := by omega
          rw [ht, ← List.drop_drop]
          have hsplit : (s - st.offset).toNat
              = chunk_size.toNat + (s - (st.offset + (chunk_size.toNat : Int))).toNat := by
            omega
          rw [hsplit, List.take_add, hdata]
        · exact ihr.2

/-- A `size` argument of `0` is falsy in Python, so `_read(0)` follows
exactly the same path as `_read(None)`. -/
theorem readLoop_zero_eq_none (content : List Char) (chunk_size start : Int) :
    ∀ (fuel : Nat) (st : FState),
      readLoop content chunk_size (some 0) start fuel st
        = readLoop content chunk_size none start fuel st := by
  intro fuel
  induction fuel with
  | zero => intro st; rfl
  | succ n ih =>
    intro st
    rw [readLoop, readLoop]
    have hlen : pyLength chunk_size start st.offset (some 0)
        = pyLength chunk_size start st.offset none := by
      simp [pyLength]
    have hpost : ∀ tell, pyPost start tell (some 0) = pyPost start tell none := by
      intro tell
      simp [pyPost]
    simp only [hlen, hpost, ih]

theorem pyRead_none {content : List Char} {chunk_size : Int} (hcs : 1 ≤ chunk_size) :
    pyRead content chunk_size none = content := by
  have h := (@readLoop_none content chunk_size hcs 0 (content.length + 1)
    (initFState chunk_size) (by simp [initFState]) (by simp [initFState]; try omega)).1
  simpa [pyRead, pyChunks, initFState] using h

theorem pyTellAfterRead_none {content : List Char} {chunk_size : Int}
    (hcs : 1 ≤ chunk_size) :
    pyTellAfterRead content chunk_size none = content.length := by
  have h := (@readLoop_none content chunk_size hcs 0 (content.length + 1)
    (initFState chunk_size) (by simp [initFState]) (by simp [initFState]; try omega)).2
  simpa [pyTellAfterRead, initFState] using h

theorem pyRead_some {content : List Char} {chunk_size s : Int} (hcs : 1 ≤ chunk_size)
    (hs : 0 < s) (hsle : s ≤ content.length) :
    pyRead content chunk_size (some s) = content.take s.toNat ∧
    pyTellAfterRead content chunk_size (some s) = s := by
  have h := @readLoop_some content chunk_size s hcs hsle (content.length + 1)
    (initFState chunk_size)
    (by simp [initFState]) (by simp [initFState]; omega) (by simp [initFState]; omega)
  constructor
  · have h1 := h.1
    simpa [pyRead, pyChunks, initFState] using h1
  · have h2 := h.2
    simpa [pyTellAfterRead, initFState] using h2

theorem pyReadlines_eq {content : List Char} {chunk_size : Int} (hcs : 1 ≤ chunk_size) :
    pyReadlines content chunk_size none = (splitNl content).dropLast := by
  have hjoin : (pyChunks content chunk_size none).flatten = content := by
    have h := (@readLoop_none content chunk_size hcs 0 (content.length + 1)
      (initFState chunk_size) (by simp [initFState]) (by simp [initFState]; try omega)).1
    simpa [pyChunks, initFState] using h
  rw [pyReadlines, rlAux_eq _ (by simp), hjoin, List.nil_append]

/-! ### Claim theorems: forward reads -/

/-- C2: for every file content and every two positive chunk sizes, reading
the whole file forward from offset 0 with `size = None` yields byte-identical
output: both equal the full content. -/
theorem C2_chunk_size_invariance (content : List Char) (S1 S2 : Int)
    (h1 : 1 ≤ S1) (h2 : 1 ≤ S2) :
    pyRead content S1 none = pyRead content S2 none := by
  rw [pyRead_none h1, pyRead_none h2]

/-- Witness for C2 at concrete inputs. -/
theorem C2_chunk_size_invariance_witness :
    (1:Int) ≤ 1 ∧ (1:Int) ≤ 2 ∧
      pyRead ['x', 'y', 'z'] 1 none = pyRead ['x', 'y', 'z'] 2 none :=
  ⟨by decide, by decide, C2_chunk_size_invariance ['x', 'y', 'z'] 1 2 (by decide) (by decide)⟩

/-- C3: forward `readlines()` strips terminators and drops the final
unterminated fragment: `"a\nb\nc"` gives `["a", "b"]` and `"a\nb\nc\n"`
gives `["a", "b", "c"]`, for every positive chunk size. -/
theorem C3_readlines_drops_unterminated (chunk_size : Int) (hcs : 1 ≤ chunk_size) :
    pyReadlines sampleUnterm chunk_size none = [['a'], ['b']] ∧
    pyReadlines sampleTerm chunk_size none = [['a'], ['b'], ['c']] := by
  rw [pyReadlines_eq hcs, pyReadlines_eq hcs]
  constructor <;> decide

/-- Witness for C3 at chunk size 1. -/
theorem C3_readlines_drops_unterminated_witness :
    (1:Int) ≤ 1 ∧ pyReadlines sampleUnterm 1 none = [['a'], ['b']] ∧
      pyReadlines sampleTerm 1 none = [['a'], ['b'], ['c']] :=
  ⟨by decide, (C3_readlines_drops_unterminated 1 (by decide)).1,
    (C3_readlines_drops_unterminated 1 (by decide)).2⟩

/-- C5: `read(size=None)` from offset 0 leaves `tell()` at the total size,
and for `0 < N ≤ size`, `seek(0); read(N)` returns exactly the first `N`
bytes and leaves `tell() = N`. -/
theorem C5_read_tell (content : List Char) (chunk_size : Int) (hcs : 1 ≤ chunk_size) :
    pyTellAfterRead content chunk_size none = content.length ∧
    ∀ N : Int, 0 < N → N ≤ content.length →
      pyRead content chunk_size (some N) = content.take N.toNat ∧
      pyTellAfterRead content chunk_size (some N) = N :=
  ⟨pyTellAfterRead_none hcs, fun _ hN hNle => pyRead_some hcs hN hNle⟩

/-- Witness for C5 on a 4-byte file with chunk size 3 and limit 2. -/
theorem C5_read_tell_witness :
    pyTellAfterRead ['a', 'b', 'c', 'd'] 3 none = (['a', 'b', 'c', 'd'] : List Char).length ∧
    pyRead ['a', 'b', 'c', 'd'] 3 (some 2) = (['a', 'b', 'c', 'd'] : List Char).take (2:Int).toNat ∧
    pyTellAfterRead ['a', 'b', 'c', 'd'] 3 (some 2) = 2 :=
  ⟨(C5_read_tell ['a', 'b', 'c', 'd'] 3 (by decide)).1,
    ((C5_read_tell ['a', 'b', 'c', 'd'] 3 (by decide)).2 2 (by decide) (by decide)).1,
    ((C5_read_tell ['a', 'b', 'c', 'd'] 3 (by decide)).2 2 (by decide) (by decide)).2⟩

/-- C10: a `size` limit of 0 is falsy, so `read(size=0)` and
`readlines(size=0)` behave exactly like `size=None` and return the entire
content (resp. all its lines), not zero bytes. -/
theorem C10_size_zero_reads_all (content : List Char) (chunk_size : Int)
    (hcs : 1 ≤ chunk_size) :
    pyRead content chunk_size (some 0) = pyRead content chunk_size none ∧
    pyRead content chunk_size (some 0) = content ∧
    pyReadlines content chunk_size (some 0) = pyReadlines content chunk_size none := by
  have hc : pyChunks content chunk_size (some 0) = pyChunks content chunk_size none := by
    rw [pyChunks, pyChunks, readLoop_zero_eq_none]
  refine ⟨?_, ?_, ?_⟩
  · rw [pyRead, pyRead, hc]
  · rw [pyRead, hc, ← pyRead, pyRead_none hcs]
  · rw [pyReadlines, pyReadlines, hc]

/-- Witness for C10 on a 3-byte file with chunk size 2. -/
theorem C10_size_zero_reads_all_witness :
    pyRead ['x', 'y', 'z'] 2 (some 0) = pyRead ['x', 'y', 'z'] 2 none ∧
    pyRead ['x', 'y', 'z'] 2 (some 0) = ['x', 'y', 'z'] ∧
    pyReadlines ['x', 'y', 'z'] 2 (some 0) = pyReadlines ['x', 'y', 'z'] 2 none :=
  C10_size_zero_reads_all ['x', 'y', 'z'] 2 (by decide)

/-! ### Claim theorems: reverse reads -/

/-- C1 fails on the code: on a 1-byte file with `chunk_size = 1` and the
default reverse target `size = fsize = 1`, the aligned walk is empty and
the single final boundary chunk is requested with length
`size % chunk_size = 0`; the reverse read yields exactly one empty chunk and
the byte of the range `[fsize - size, fsize)` is never fetched. -/
theorem C1_reverse_read_skips_bytes :
    (readReverseChunks ['a'] 1 none (initFState 1)).1 = [[]] ∧
    ((readReverseChunks ['a'] 1 none (initFState 1)).1).reverse.flatten = [] := by
  decide

/-- `readReverseChunks` on `sampleTerm` with `size = None`, with the size
fetch and the `fsize`/`size` defaulting unfolded (`fsize = size = 6`). -/
theorem readReverseChunks_sampleTerm (chunk_size : Int) (st : FState) :
    readReverseChunks sampleTerm chunk_size none st =
      ((revWalk sampleTerm chunk_size (xrangeNeg (6 - chunk_size) 0 chunk_size) st).1
          ++ [(getChunkSt sampleTerm
                (revWalk sampleTerm chunk_size (xrangeNeg (6 - chunk_size) 0 chunk_size) st).2
                0 (6 % chunk_size)).1],
        (getChunkSt sampleTerm
            (revWalk sampleTerm chunk_size (xrangeNeg (6 - chunk_size) 0 chunk_size) st).2
            0 (6 % chunk_size)).2) := rfl

/-- For any chunk size above the file length, the reverse read of
`sampleTerm` degenerates to one single whole-file chunk. -/
theorem readReverseChunks_sampleTerm_large {chunk_size : Int} (h7 : 7 ≤ chunk_size)
    (st : FState) :
    (readReverseChunks sampleTerm chunk_size none st).1 = [sampleTerm] := by
  rw [readReverseChunks_sampleTerm]
  have hb : xrangeNeg (6 - chunk_size) 0 chunk_size = [] := by
    rw [xrangeNeg]
    have h0 : ((6 - chunk_size) - 0).toNat = 0 := by omega
    rw [h0]
    rfl
  have hm : (6 : Int) % chunk_size = 6 := Int.emod_eq_of_lt (by norm_num) (by omega)
  rw [hb, hm]
  simp only [revWalk, getChunkSt_eq, List.nil_append]
  decide

/-- C4: reverse line iteration (`reversed(file)`) on `"a\nb\nc\n"`, for
every positive chunk size whose reverse chunk read covers the file, yields
exactly `["c", "b", "a"]` — reverse of forward order, terminators stripped,
the trailing-terminator empty sentinel suppressed. -/
theorem C4_reverse_line_iteration (chunk_size : Int) (hcs : 1 ≤ chunk_size)
    (hcov : revCovers sampleTerm chunk_size) :
    pyReversedLines sampleTerm chunk_size = [['c'], ['b'], ['a']] := by
  rcases lt_or_le chunk_size 7 with h7 | h7
  · interval_cases chunk_size
    · exact absurd hcov (by decide)
    · exact absurd hcov (by decide)
    · exact absurd hcov (by decide)
    · decide
    · decide
    · exact absurd hcov (by decide)
  · simp only [pyReversedLines, readReverseChunks_sampleTerm_large h7]
    decide

/-- Witness for C4 at chunk size 4 (a covering chunk size). -/
theorem C4_reverse_line_iteration_witness :
    (1:Int) ≤ 4 ∧ revCovers sampleTerm 4 ∧
      pyReversedLines sampleTerm 4 = [['c'], ['b'], ['a']] :=
  ⟨by decide, by decide, C4_reverse_line_iteration 4 (by decide) (by decide)⟩

/-! ### Claim theorems: seek, size, exists, identity -/

/-- Counterexample to C6 as stated: `seek(-1, SEEK_SET)` on a fresh handle
leaves the cursor at `-1 < 0` — the source clamps nothing. -/
theorem C6_counterexample : (pySeek [] (initFState 1024) (-1) 0).offset < 0 := by
  decide

/-- C6 amended: after any `seek` whose `offset` argument is nonnegative,
starting from a nonnegative cursor, the cursor stays nonnegative (for
`SEEK_END` because the fetched size is a list length, hence nonnegative). -/
theorem C6_seek_nonneg (content : List Char) (st : FState) (offset whence : Int)
    (h0 : 0 ≤ st.offset) (hoff : 0 ≤ offset) :
    0 ≤ (pySeek content st offset whence).offset := by
  have hsz : sizeProp content st = (content.length : Int) := rfl
  unfold pySeek
  split
  · simp; omega
  · split
    · simp; omega
    · split
      · simp [hsz]; positivity
      · exact h0

/-- Witness for C6: a `SEEK_END` seek with nonnegative offset from a fresh
handle leaves a nonnegative cursor. -/
theorem C6_seek_nonneg_witness :
    (0:Int) ≤ (initFState 1024).offset ∧ (0:Int) ≤ 5 ∧
      0 ≤ (pySeek ['a'] (initFState 1024) 5 2).offset :=
  ⟨by decide, by decide, C6_seek_nonneg ['a'] (initFState 1024) 5 2 (by decide) (by decide)⟩

/-- Counterexample to C7 as stated: the fetch issued by the `size` property
uses the current contents of the shared `_params` dict, which on a fresh
handle are offset `-1` and length `chunk_size = 1024` — not offset 0 and
length 0. -/
theorem C7_counterexample : sizeFetchParams (initFState 1024) ≠ (0, 0) := by
  decide

/-- C7 amended: every evaluation of `size` issues a fresh fetch with the
current `_params` (offset `-1`/length `chunk_size` on a fresh handle, the
last chunk request's offset/length after a `_get_chunk`), returns the
`offset` field of that response — the live total size under the endpoint
contract of §6 — and caches nothing, so it tracks content growth. -/
theorem C7_size_is_live_fetch (content other : List Char) (st : FState) (loc len : Int) :
    sizeProp content st
        = (endpointFetch content (sizeFetchParams st).1 (sizeFetchParams st).2).offset ∧
    sizeProp content st = content.length ∧
    sizeProp other st = other.length ∧
    sizeFetchParams (getChunkSt content st loc len).2 = (loc, len) ∧
    sizeFetchParams (initFState 1024) = (-1, 1024) ∧
    sizeProp content (getChunkSt content st loc len).2 = content.length :=
  ⟨rfl, rfl, rfl, rfl, rfl, rfl⟩

/-- C8: `exists()` maps a `FileDNE`-failing fetch to `false` and a
successful fetch to `true`; being a total boolean function of the model it
raises nothing. -/
theorem C8_exists_total (remote : Option (List Char)) (st : FState) :
    (∀ r, pyFetch remote st.pOffset st.pLength = .ok r → pyExists remote st = true) ∧
    (pyFetch remote st.pOffset st.pLength = .error .fileDNE → pyExists remote st = false) := by
  cases remote with
  | none => exact ⟨fun r h => by simp [pyFetch] at h, fun _ => rfl⟩
  | some content => exact ⟨fun r _ => rfl, fun h => by simp [pyFetch] at h⟩

/-- Witness for C8: a present remote file reports `true`, a missing one
`false`. -/
theorem C8_exists_total_witness :
    pyExists (some ['a']) (initFState 1024) = true ∧
      pyExists none (initFState 1024) = false :=
  ⟨(C8_exists_total (some ['a']) (initFState 1024)).1 _ rfl,
    (C8_exists_total none (initFState 1024)).2 rfl⟩

/-- C9: two handles are equal exactly when their keys (host key joined with
the resolved physical path) are equal, and equal keys force equal hashes. -/
theorem C9_identity_by_key (a b : MFile) :
    (fileEq a b = true ↔ fileKey a = fileKey b) ∧
    (fileKey a = fileKey b → fileHash a = fileHash b) :=
  ⟨by rw [fileEq, beq_iff_eq], fun h => by rw [fileHash, fileHash, h]⟩

/-- Witness for C9: a task-relative handle and a direct handle that resolve
to the same physical path compare equal and hash equal. -/
theorem C9_identity_by_key_witness :
    fileEq ⟨⟨['h']⟩, some ⟨['/', 'd'], ['t', '1']⟩, ['f']⟩
        ⟨⟨['h']⟩, none, ['/', 'd', '/', 'f']⟩ = true ∧
    fileHash ⟨⟨['h']⟩, some ⟨['/', 'd'], ['t', '1']⟩, ['f']⟩
        = fileHash ⟨⟨['h']⟩, none, ['/', 'd', '/', 'f']⟩ :=
  ⟨(C9_identity_by_key ⟨⟨['h']⟩, some ⟨['/', 'd'], ['t', '1']⟩, ['f']⟩
        ⟨⟨['h']⟩, none, ['/', 'd', '/', 'f']⟩).1.mpr (by decide),
    (C9_identity_by_key ⟨⟨['h']⟩, some ⟨['/', 'd'], ['t', '1']⟩, ['f']⟩
        ⟨⟨['h']⟩, none, ['/', 'd', '/', 'f']⟩).2 (by decide)⟩

end MesosFile
